import Mathlib

/-
Verification of the template-setup script `setup_project.py`.

The script materializes a Python project template: it validates operator
input (project name, email), derives module/class identifiers, resolves a
target directory, copies the template tree, renames paths containing
placeholder tokens, and substitutes tokens in file contents.

This file embeds the script's pure logic over `List Char` / `String` and a
small filesystem-tree model, and proves or refutes the frozen claims about
it.  Placeholder tokens are the literal strings of the script, with braces
written via their escape codes.
-/

/- ===================== 1. Python `str.replace` ===================== -/

/-- Bool test that `k` is a prefix of `s`, by direct character recursion. -/
def leadsWith : List Char → List Char → Bool
  | [], _ => true
  | _ :: _, [] => false
  | a :: as, b :: bs => a == b && leadsWith as bs

theorem leadsWith_iff (k s : List Char) : leadsWith k s = true ↔ ∃ t, s = k ++ t := by
  induction k generalizing s with
  | nil => simp [leadsWith]
  | cons a as ih =>
    cases s with
    | nil => simp [leadsWith]
    | cons b bs =>
      show (a == b && leadsWith as bs) = true ↔ _
      rw [Bool.and_eq_true, beq_iff_eq, ih]
      constructor
      · rintro ⟨rfl, t, rfl⟩
        exact ⟨t, rfl⟩
      · rintro ⟨t, ht⟩
        rw [List.cons_append] at ht
        rw [List.cons.injEq] at ht
        exact ⟨ht.1.symm, t, ht.2⟩

theorem leadsWith_self_append (k t : List Char) : leadsWith k (k ++ t) = true :=
  (leadsWith_iff k (k ++ t)).mpr ⟨t, rfl⟩

theorem leadsWith_nil_iff (k : List Char) : leadsWith k [] = true ↔ k = [] := by
  cases k <;> simp [leadsWith]

theorem leadsWith_append_cases {k u t : List Char} (h : leadsWith k (u ++ t) = true) :
    leadsWith k u = true ∨ leadsWith u k = true := by
  rcases (leadsWith_iff k (u ++ t)).mp h with ⟨r, hr⟩
  rcases List.append_eq_append_iff.mp hr with h1 | h1
  · rcases h1 with ⟨w, hw, _⟩
    exact Or.inr ((leadsWith_iff u k).mpr ⟨w, hw⟩)
  · rcases h1 with ⟨w, hw, _⟩
    exact Or.inl ((leadsWith_iff k u).mpr ⟨w, hw⟩)

theorem leadsWith_cons_iff (a : Char) (as : List Char) (c : Char) (s : List Char) :
    leadsWith (a :: as) (c :: s) = true ↔ a = c ∧ leadsWith as s = true := by
  show (a == c && leadsWith as s) = true ↔ _
  rw [Bool.and_eq_true, beq_iff_eq]

/--
One left-to-right scan of Python `str.replace(k, v)` on `s`: at each
position, if the pattern `k` matches, emit `v` and continue after the
match (the emitted `v` is not rescanned), else copy one character.  `fuel`
bounds the recursion depth so the definition is structural; `rep` below
instantiates it with the string length, which always suffices.  (For the
empty pattern this is the identity scan, unlike Python, which inserts `v`
at every position; every pattern used by the script is nonempty.)
-/
def repFuel (k v : List Char) : Nat → List Char → List Char
  | _, [] => []
  | 0, s => s
  | n + 1, c :: s' =>
    if k ≠ [] ∧ leadsWith k (c :: s') = true then v ++ repFuel k v n ((c :: s').drop k.length)
    else c :: repFuel k v n s'

/-- Python `s.replace(k, v)` for a nonempty pattern `k`. -/
def rep (k v s : List Char) : List Char := repFuel k v s.length s

theorem repFuel_fuel_irrel (k v : List Char) :
    ∀ (n m : Nat) (s : List Char), s.length ≤ n → s.length ≤ m →
      repFuel k v n s = repFuel k v m s := by
  intro n
  induction n with
  | zero =>
    intro m s hn _
    have : s = [] := List.eq_nil_of_length_eq_zero (Nat.le_zero.mp hn)
    subst this
    cases m <;> rfl
  | succ n ih =>
    intro m s hn hm
    cases s with
    | nil => cases m <;> rfl
    | cons c s' =>
      cases m with
      | zero =>
        exact absurd hm (by simp)
      | succ m' =>
        simp only [repFuel]
        simp only [List.length_cons] at hn hm
        by_cases hc : k ≠ [] ∧ leadsWith k (c :: s') = true
        · rw [if_pos hc, if_pos hc]
          have hk : 1 ≤ k.length := List.length_pos.mpr hc.1
          have hd : ((c :: s').drop k.length).length ≤ s'.length := by
            simp only [List.length_drop, List.length_cons]
            omega
          exact congrArg (v ++ ·) (ih m' _ (by omega) (by omega))
        · rw [if_neg hc, if_neg hc]
          exact congrArg (c :: ·) (ih m' s' (by omega) (by omega))

theorem rep_nil (k v : List Char) : rep k v [] = [] := rfl

theorem rep_cons (k v : List Char) (c : Char) (s' : List Char) :
    rep k v (c :: s') =
      if k ≠ [] ∧ leadsWith k (c :: s') = true then v ++ rep k v ((c :: s').drop k.length)
      else c :: rep k v s' := by
  show repFuel k v (s'.length + 1) (c :: s') = _
  simp only [repFuel]
  by_cases hc : k ≠ [] ∧ leadsWith k (c :: s') = true
  · rw [if_pos hc, if_pos hc]
    have hk : 1 ≤ k.length := List.length_pos.mpr hc.1
    refine congrArg (v ++ ·) (repFuel_fuel_irrel k v s'.length _ _ ?_ le_rfl)
    simp only [List.length_drop, List.length_cons]
    omega
  · rw [if_neg hc, if_neg hc]
    rfl

theorem rep_cons_neg {k : List Char} (v : List Char) {c : Char} {s' : List Char}
    (h : ¬ (k ≠ [] ∧ leadsWith k (c :: s') = true)) :
    rep k v (c :: s') = c :: rep k v s' := by
  rw [rep_cons, if_neg h]

theorem rep_cons_skip {k : List Char} (v : List Char) {c : Char} {s' : List Char}
    (h : leadsWith k (c :: s') = false) :
    rep k v (c :: s') = c :: rep k v s' :=
  rep_cons_neg v (by simp [h])

theorem rep_token_append {k : List Char} (hk : k ≠ []) (v t : List Char) :
    rep k v (k ++ t) = v ++ rep k v t := by
  cases k with
  | nil => exact absurd rfl hk
  | cons a as =>
    rw [List.cons_append, rep_cons,
      if_pos ⟨hk, by rw [← List.cons_append]; exact leadsWith_self_append (a :: as) t⟩]
    rw [← List.cons_append, List.drop_left]

/--
If no position inside `u` can start a match of `k` (neither `k` a prefix
of a suffix of `u`, nor a suffix of `u` a prefix of `k`), then replacement
walks straight through `u`.
-/
theorem rep_clean_append (k v : List Char) :
    ∀ (u t : List Char),
      (∀ i, i < u.length → leadsWith k (u.drop i) = false ∧ leadsWith (u.drop i) k = false) →
      rep k v (u ++ t) = u ++ rep k v t := by
  intro u
  induction u with
  | nil => simp
  | cons c u' ih =>
    intro t h
    have h0 := h 0 (by simp)
    rw [List.drop_zero] at h0
    have hnot : ¬ (k ≠ [] ∧ leadsWith k ((c :: u') ++ t) = true) := by
      rintro ⟨_, hlead⟩
      rcases leadsWith_append_cases hlead with h1 | h1
      · rw [h0.1] at h1
        exact Bool.false_ne_true h1
      · rw [h0.2] at h1
        exact Bool.false_ne_true h1
    rw [List.cons_append] at hnot
    rw [List.cons_append, rep_cons_neg v hnot]
    rw [ih t (fun i hi => by
      have := h (i + 1) (by simpa using Nat.succ_lt_succ hi)
      simpa [List.drop_succ_cons] using this)]
    rfl

/- ===================== 2. Token occurrence lemmas ===================== -/

/-- Python `k in s`: `k` occurs as a contiguous substring of `s`. -/
def containsTok (k : List Char) : List Char → Bool
  | [] => leadsWith k []
  | c :: s' => leadsWith k (c :: s') || containsTok k s'

/--
Separation of `a` from `b`: `b` is not a prefix of any nonempty suffix of
`a`, and no nonempty suffix of `a` is a prefix of `b`.  Instantiated at
key/value pairs, these are the conditions under which one replacement can
neither destroy nor create occurrences of a token.
-/
def SuffOK (a b : List Char) : Prop :=
  ∀ i, i < a.length → leadsWith b (a.drop i) = false ∧ leadsWith (a.drop i) b = false

/-- Executable form of `SuffOK`. -/
def suffCond (a b : List Char) : Bool :=
  (List.range a.length).all (fun i => !(leadsWith b (a.drop i)) && !(leadsWith (a.drop i) b))

theorem suffCond_spec {a b : List Char} (h : suffCond a b = true) : SuffOK a b := by
  intro i hi
  have := (List.all_eq_true.mp h) i (List.mem_range.mpr hi)
  simpa using this

theorem containsTok_append_left_false {k : List Char} :
    ∀ {u t : List Char}, containsTok k (u ++ t) = false → containsTok k t = false := by
  intro u
  induction u with
  | nil => intro t h; exact h
  | cons c u' ih =>
    intro t h
    rw [List.cons_append] at h
    have h2 : containsTok k (u' ++ t) = false := by
      by_contra hx
      rw [Bool.not_eq_false] at hx
      have : containsTok k (c :: (u' ++ t)) = true := by
        show (leadsWith k (c :: (u' ++ t)) || containsTok k (u' ++ t)) = true
        rw [hx, Bool.or_true]
      rw [h] at this
      exact Bool.false_ne_true this
    exact ih h2

theorem containsTok_clean_append {k : List Char} :
    ∀ (u R : List Char), SuffOK u k → containsTok k R = false → containsTok k (u ++ R) = false := by
  intro u
  induction u with
  | nil => intro R _ h; exact h
  | cons c u' ih =>
    intro R h hR
    have h0 := h 0 (by simp)
    rw [List.drop_zero] at h0
    rw [List.cons_append]
    show (leadsWith k (c :: (u' ++ R)) || containsTok k (u' ++ R)) = false
    have hlead : leadsWith k (c :: (u' ++ R)) = false := by
      by_contra hx
      rw [Bool.not_eq_false, ← List.cons_append] at hx
      rcases leadsWith_append_cases hx with h1 | h1
      · rw [h0.1] at h1
        exact Bool.false_ne_true h1
      · rw [h0.2] at h1
        exact Bool.false_ne_true h1
    rw [hlead, ih R (fun i hi => by
      have := h (i + 1) (by simpa using Nat.succ_lt_succ hi)
      simpa [List.drop_succ_cons] using this) hR]
    rfl

theorem rep_no_new_lead_aux {k v p : List Char} (hcond : SuffOK p v) :
    ∀ (n : Nat) (s : List Char), s.length ≤ n → ∀ (j : Nat),
      leadsWith (p.drop j) s = false → leadsWith (p.drop j) (rep k v s) = false := by
  intro n
  induction n with
  | zero =>
    intro s hn j h
    have hs : s = [] := List.eq_nil_of_length_eq_zero (Nat.le_zero.mp hn)
    subst hs
    rw [rep_nil]
    exact h
  | succ n ih =>
    intro s hn j h
    cases s with
    | nil => rw [rep_nil]; exact h
    | cons c s' =>
      simp only [List.length_cons] at hn
      have hpd : p.drop j ≠ [] := by
        intro he
        rw [he] at h
        simp [leadsWith] at h
      have hj : j < p.length := by
        by_contra hx
        exact hpd (List.drop_eq_nil_of_le (by omega))
      by_cases hm : k ≠ [] ∧ leadsWith k (c :: s') = true
      · rw [rep_cons, if_pos hm]
        by_contra hT
        rw [Bool.not_eq_false] at hT
        rcases leadsWith_append_cases hT with h1 | h1
        · rw [(hcond j hj).2] at h1
          exact Bool.false_ne_true h1
        · rw [(hcond j hj).1] at h1
          exact Bool.false_ne_true h1
      · rw [rep_cons, if_neg hm]
        cases hpdrop : p.drop j with
        | nil => exact absurd hpdrop hpd
        | cons d rest =>
          rw [hpdrop] at h
          by_contra hT
          rw [Bool.not_eq_false, leadsWith_cons_iff] at hT
          have hdc : d = c := hT.1
          have hrest : leadsWith rest s' = false := by
            by_contra hr
            rw [Bool.not_eq_false] at hr
            have : leadsWith (d :: rest) (c :: s') = true :=
              (leadsWith_cons_iff d rest c s').mpr ⟨hdc, hr⟩
            rw [h] at this
            exact Bool.false_ne_true this
          have hdropsucc : p.drop (j + 1) = rest := by
            rw [← List.tail_drop, hpdrop]
            rfl
          have := ih s' (by omega) (j + 1) (by rw [hdropsucc]; exact hrest)
          rw [hdropsucc] at this
          rw [this] at hT
          exact Bool.false_ne_true hT.2

theorem rep_no_new_lead (k : List Char) {v p : List Char} (hcond : SuffOK p v) (s : List Char)
    (j : Nat) (h : leadsWith (p.drop j) s = false) : leadsWith (p.drop j) (rep k v s) = false :=
  rep_no_new_lead_aux hcond s.length s le_rfl j h

theorem rep_no_new_lead_zero {k v p : List Char} (hcond : SuffOK p v) (s : List Char)
    (h : leadsWith p s = false) : leadsWith p (rep k v s) = false := by
  have := rep_no_new_lead k hcond s 0 (by rw [List.drop_zero]; exact h)
  rwa [List.drop_zero] at this

theorem rep_kills_aux {k v : List Char} (hk : k ≠ []) (hkv : SuffOK k v) (hvk : SuffOK v k) :
    ∀ (n : Nat) (s : List Char), s.length ≤ n → containsTok k (rep k v s) = false := by
  intro n
  induction n with
  | zero =>
    intro s hn
    have hs : s = [] := List.eq_nil_of_length_eq_zero (Nat.le_zero.mp hn)
    subst hs
    rw [rep_nil]
    show leadsWith k [] = false
    by_contra hx
    rw [Bool.not_eq_false, leadsWith_nil_iff] at hx
    exact hk hx
  | succ n ih =>
    intro s hn
    cases s with
    | nil =>
      rw [rep_nil]
      show leadsWith k [] = false
      by_contra hx
      rw [Bool.not_eq_false, leadsWith_nil_iff] at hx
      exact hk hx
    | cons c s' =>
      simp only [List.length_cons] at hn
      by_cases hm : k ≠ [] ∧ leadsWith k (c :: s') = true
      · rw [rep_cons, if_pos hm]
        have hklen : 1 ≤ k.length := List.length_pos.mpr hk
        refine containsTok_clean_append v _ hvk (ih _ ?_)
        simp only [List.length_drop, List.length_cons]
        omega
      · have hL : leadsWith k (c :: s') = false := by
          by_contra hx
          rw [Bool.not_eq_false] at hx
          exact hm ⟨hk, hx⟩
        have hnew : leadsWith k (rep k v (c :: s')) = false :=
          rep_no_new_lead_zero hkv (c :: s') hL
        rw [rep_cons_neg v hm] at hnew
        rw [rep_cons_neg v hm]
        show (leadsWith k (c :: rep k v s') || containsTok k (rep k v s')) = false
        rw [hnew, ih s' (by omega)]
        rfl

/--
Replacing a token by a value separated from it removes every occurrence of
the token: the result of `s.replace(k, v)` never contains `k`.
-/
theorem rep_kills {k v : List Char} (hk : k ≠ []) (hkv : SuffOK k v) (hvk : SuffOK v k)
    (s : List Char) : containsTok k (rep k v s) = false :=
  rep_kills_aux hk hkv hvk s.length s le_rfl

theorem rep_preserve_aux {k v p : List Char} (hpv : SuffOK p v) (hvp : SuffOK v p) :
    ∀ (n : Nat) (s : List Char), s.length ≤ n →
      containsTok p s = false → containsTok p (rep k v s) = false := by
  intro n
  induction n with
  | zero =>
    intro s hn h
    have hs : s = [] := List.eq_nil_of_length_eq_zero (Nat.le_zero.mp hn)
    subst hs
    rw [rep_nil]
    exact h
  | succ n ih =>
    intro s hn h
    cases s with
    | nil => rw [rep_nil]; exact h
    | cons c s' =>
      simp only [List.length_cons] at hn
      have hsplit : leadsWith p (c :: s') = false ∧ containsTok p s' = false := by
        constructor
        · by_contra hx
          rw [Bool.not_eq_false] at hx
          have : containsTok p (c :: s') = true := by
            show (leadsWith p (c :: s') || containsTok p s') = true
            rw [hx]
            rfl
          rw [h] at this
          exact Bool.false_ne_true this
        · by_contra hx
          rw [Bool.not_eq_false] at hx
          have : containsTok p (c :: s') = true := by
            show (leadsWith p (c :: s') || containsTok p s') = true
            rw [hx, Bool.or_true]
          rw [h] at this
          exact Bool.false_ne_true this
      by_cases hm : k ≠ [] ∧ leadsWith k (c :: s') = true
      · rcases (leadsWith_iff k (c :: s')).mp hm.2 with ⟨t, ht⟩
        have hklen : 1 ≤ k.length := List.length_pos.mpr hm.1
        have hdrop : (c :: s').drop k.length = t := by
          rw [ht, List.drop_left]
        rw [rep_cons, if_pos hm, hdrop]
        have htlen : t.length ≤ n := by
          have : (c :: s').length = k.length + t.length := by rw [ht, List.length_append]
          simp only [List.length_cons] at this
          omega
        have htfree : containsTok p t = false := containsTok_append_left_false (ht ▸ h)
        exact containsTok_clean_append v _ hvp (ih t htlen htfree)
      · have hnew : leadsWith p (rep k v (c :: s')) = false :=
          rep_no_new_lead_zero hpv (c :: s') hsplit.1
        rw [rep_cons_neg v hm] at hnew
        rw [rep_cons_neg v hm]
        show (leadsWith p (c :: rep k v s') || containsTok p (rep k v s')) = false
        rw [hnew, ih s' (by omega) hsplit.2]
        rfl

/--
A replacement of a different, separated token neither creates nor restores
occurrences of `p`: absence of `p` is preserved by `s.replace(k, v)`.
-/
theorem rep_preserve {k v p : List Char} (hpv : SuffOK p v) (hvp : SuffOK v p)
    (s : List Char) (h : containsTok p s = false) : containsTok p (rep k v s) = false :=
  rep_preserve_aux hpv hvp s.length s le_rfl h

/- ===================== 3. The replacement table loop ===================== -/

/-- The script's replacement loop: `for k, v in replacements.items(): s = s.replace(k, v)`. -/
def applyAll (tbl : List (List Char × List Char)) (s : List Char) : List Char :=
  tbl.foldl (fun acc q => rep q.1 q.2 acc) s

/--
Cleanliness of a replacement table: every key is nonempty, and every value
is separated (in the sense of `suffCond`, both ways) from every key of the
table, its own key included.
-/
def cleanTable (tbl : List (List Char × List Char)) : Bool :=
  tbl.all (fun q => !q.1.isEmpty) &&
    tbl.all (fun q => tbl.all (fun r => suffCond q.1 r.2 && suffCond r.2 q.1))

theorem cleanTable_iff {tbl : List (List Char × List Char)} :
    cleanTable tbl = true ↔
      (∀ q ∈ tbl, q.1 ≠ []) ∧
      (∀ q ∈ tbl, ∀ r ∈ tbl, suffCond q.1 r.2 = true ∧ suffCond r.2 q.1 = true) := by
  simp [cleanTable, List.all_eq_true]

theorem applyAll_preserve {key : List Char} :
    ∀ (tbl : List (List Char × List Char)),
      (∀ r ∈ tbl, suffCond key r.2 = true ∧ suffCond r.2 key = true) →
      ∀ s, containsTok key s = false → containsTok key (applyAll tbl s) = false := by
  intro tbl
  induction tbl with
  | nil => intro _ s h; exact h
  | cons q rest ih =>
    intro hc s h
    have hq := hc q (by simp)
    show containsTok key (applyAll rest (rep q.1 q.2 s)) = false
    refine ih (fun r hr => hc r (by simp [hr])) _ ?_
    exact rep_preserve (suffCond_spec hq.1) (suffCond_spec hq.2) s h

/--
After the whole replacement loop runs over a clean table, no key of the
table occurs in the result.
-/
theorem applyAll_kills :
    ∀ (tbl : List (List Char × List Char)), cleanTable tbl = true →
      ∀ q ∈ tbl, ∀ s, containsTok q.1 (applyAll tbl s) = false := by
  intro tbl
  induction tbl with
  | nil => intro _ q hq; exact absurd hq (by simp)
  | cons r rest ih =>
    intro hclean q hq s
    have hc := cleanTable_iff.mp hclean
    have hrestclean : cleanTable rest = true :=
      cleanTable_iff.mpr
        ⟨fun a ha => hc.1 a (by simp [ha]), fun a ha b hb => hc.2 a (by simp [ha]) b (by simp [hb])⟩
    rcases List.mem_cons.mp hq with rfl | hqrest
    · show containsTok q.1 (applyAll rest (rep q.1 q.2 s)) = false
      have hself := hc.2 q (by simp) q (by simp)
      have hkfree : containsTok q.1 (rep q.1 q.2 s) = false :=
        rep_kills (hc.1 q (by simp)) (suffCond_spec hself.1) (suffCond_spec hself.2) s
      exact applyAll_preserve rest
        (fun r hr => hc.2 q (by simp) r (by simp [hr])) _ hkfree
    · exact ih hrestclean q hqrest (rep r.1 r.2 s)

/- ===================== 4. Commutation of separated replacements ===================== -/

theorem rep_comm_aux {k1 v1 k2 v2 : List Char}
    (hk1 : k1 ≠ []) (hk2 : k2 ≠ [])
    (hA12 : SuffOK k1 k2) (hA21 : SuffOK k2 k1)
    (hB12 : SuffOK v1 k2) (hB21 : SuffOK v2 k1)
    (hC12 : SuffOK k2 v1) (hC21 : SuffOK k1 v2) :
    ∀ (n : Nat) (s : List Char), s.length ≤ n →
      rep k1 v1 (rep k2 v2 s) = rep k2 v2 (rep k1 v1 s) := by
  intro n
  induction n with
  | zero =>
    intro s hn
    have hs : s = [] := List.eq_nil_of_length_eq_zero (Nat.le_zero.mp hn)
    subst hs
    rfl
  | succ n ih =>
    intro s hn
    by_cases h1 : leadsWith k1 s = true
    · rcases (leadsWith_iff k1 s).mp h1 with ⟨t, rfl⟩
      have hk1len : 1 ≤ k1.length := List.length_pos.mpr hk1
      have htlen : t.length ≤ n := by
        rw [List.length_append] at hn
        omega
      rw [rep_clean_append k2 v2 k1 t hA12]
      rw [rep_token_append hk1 v1 t]
      rw [rep_token_append hk1 v1 (rep k2 v2 t)]
      rw [rep_clean_append k2 v2 v1 (rep k1 v1 t) hB12]
      rw [ih t htlen]
    · by_cases h2 : leadsWith k2 s = true
      · rcases (leadsWith_iff k2 s).mp h2 with ⟨t, rfl⟩
        have hk2len : 1 ≤ k2.length := List.length_pos.mpr hk2
        have htlen : t.length ≤ n := by
          rw [List.length_append] at hn
          omega
        rw [rep_clean_append k1 v1 k2 t hA21]
        rw [rep_token_append hk2 v2 t]
        rw [rep_token_append hk2 v2 (rep k1 v1 t)]
        rw [rep_clean_append k1 v1 v2 (rep k2 v2 t) hB21]
        rw [ih t htlen]
      · cases s with
        | nil => rfl
        | cons c s' =>
          simp only [List.length_cons] at hn
          have h1' : leadsWith k1 (c :: s') = false := by
            revert h1
            cases leadsWith k1 (c :: s') <;> simp
          have h2' : leadsWith k2 (c :: s') = false := by
            revert h2
            cases leadsWith k2 (c :: s') <;> simp
          have hL : leadsWith k1 (rep k2 v2 (c :: s')) = false :=
            rep_no_new_lead_zero hC21 (c :: s') h1'
          have hR : leadsWith k2 (rep k1 v1 (c :: s')) = false :=
            rep_no_new_lead_zero hC12 (c :: s') h2'
          rw [rep_cons_skip v2 h2'] at hL
          rw [rep_cons_skip v1 h1'] at hR
          rw [rep_cons_skip v2 h2', rep_cons_skip v1 h1']
          rw [rep_cons_skip v1 hL, rep_cons_skip v2 hR]
          rw [ih s' (by omega)]

/--
Two replacements whose keys and values are pairwise separated commute on
every string.
-/
theorem rep_comm {k1 v1 k2 v2 : List Char}
    (hk1 : k1 ≠ []) (hk2 : k2 ≠ [])
    (hA12 : SuffOK k1 k2) (hA21 : SuffOK k2 k1)
    (hB12 : SuffOK v1 k2) (hB21 : SuffOK v2 k1)
    (hC12 : SuffOK k2 v1) (hC21 : SuffOK k1 v2) (s : List Char) :
    rep k1 v1 (rep k2 v2 s) = rep k2 v2 (rep k1 v1 s) :=
  rep_comm_aux hk1 hk2 hA12 hA21 hB12 hB21 hC12 hC21 s.length s le_rfl

/--
A clean table whose keys are additionally pairwise separated from each
other: under this condition the replacement loop is order-independent.
-/
def goodTable (tbl : List (List Char × List Char)) : Bool :=
  cleanTable tbl &&
    tbl.all (fun q => tbl.all (fun r => decide (q = r) || (suffCond q.1 r.1 && suffCond r.1 q.1)))

theorem goodTable_comm {tbl : List (List Char × List Char)} (h : goodTable tbl = true) :
    ∀ x ∈ tbl, ∀ y ∈ tbl, ∀ z,
      rep y.1 y.2 (rep x.1 x.2 z) = rep x.1 x.2 (rep y.1 y.2 z) := by
  intro x hx y hy z
  rcases eq_or_ne x y with rfl | hxy
  · rfl
  · rw [goodTable, Bool.and_eq_true] at h
    have hclean := cleanTable_iff.mp h.1
    have hkeys := List.all_eq_true.mp (List.all_eq_true.mp h.2 x hx) y hy
    rw [decide_eq_false hxy] at hkeys
    rw [Bool.false_or, Bool.and_eq_true] at hkeys
    have hxv := hclean.2 x hx y hy
    have hyv := hclean.2 y hy x hx
    exact rep_comm (hclean.1 y hy) (hclean.1 x hx)
      (suffCond_spec hkeys.2) (suffCond_spec hkeys.1)
      (suffCond_spec hxv.2) (suffCond_spec hyv.2)
      (suffCond_spec hxv.1) (suffCond_spec hyv.1) z

/--
Over a good table, the replacement loop gives the same result in any
permutation of the table order.
-/
theorem applyAll_perm {tbl tbl' : List (List Char × List Char)} (h : goodTable tbl = true)
    (hp : tbl'.Perm tbl) (s : List Char) : applyAll tbl' s = applyAll tbl s := by
  refine List.Perm.foldl_eq' hp ?_ s
  intro x hx y hy z
  exact goodTable_comm h x (hp.mem_iff.mp hx) y (hp.mem_iff.mp hy) z

/- ===================== 5. Input validation and identifier derivation ===================== -/

/--
Tiny regular-expression syntax, sufficient for the two anchored patterns
of the script: character classes, Kleene star of a class, alternation and
concatenation (`+` and `{2,}` are derived forms).
-/
inductive RE where
  | cls (p : Char → Bool)
  | star (p : Char → Bool)
  | alt (a b : RE)
  | seq (a b : RE)

/-- Remainders after consuming one or more `p`-characters from the front. -/
def prefRem (p : Char → Bool) : List Char → List (List Char)
  | [] => []
  | c :: cs => if p c then cs :: prefRem p cs else []

/-- All remainders left after matching `r` against a prefix of the input. -/
def reRem : RE → List Char → List (List Char)
  | .cls _, [] => []
  | .cls p, c :: cs => if p c then [cs] else []
  | .star p, cs => cs :: prefRem p cs
  | .alt a b, cs => reRem a cs ++ reRem b cs
  | .seq a b, cs => ((reRem a cs).map (fun rest => reRem b rest)).flatten

/-- Anchored (full) match, as for the `^...$` patterns of the script. -/
def reFullMatch (r : RE) (l : List Char) : Bool := (reRem r l).contains []

/-- One-or-more repetition of a class. -/
def rePlus (p : Char → Bool) : RE := .seq (.cls p) (.star p)

/-- Class `[a-zA-Z0-9._%+-]`, the local-part class of the email pattern. -/
def localPartCls (c : Char) : Bool :=
  c.isAlphanum || c == '.' || c == '_' || c == '%' || c == '+' || c == '-'

/-- Class `[a-zA-Z0-9.-]`, the domain class of the email pattern. -/
def domainCls (c : Char) : Bool := c.isAlphanum || c == '.' || c == '-'

/-- The email pattern `^[a-zA-Z0-9._%+-]+@[a-zA-Z0-9.-]+\.[a-zA-Z]\x7b2,\x7d$`. -/
def emailRE : RE :=
  .seq (rePlus localPartCls)
    (.seq (.cls (fun c => c == '@'))
      (.seq (rePlus domainCls)
        (.seq (.cls (fun c => c == '.'))
          (.seq (.cls Char.isAlpha) (rePlus Char.isAlpha)))))

/-- Everything before the first `'>'`. -/
def untilGt : List Char → List Char
  | [] => []
  | c :: rest => if c == '>' then [] else c :: untilGt rest

/-- The bracketed part after the first `'<'`, if any. -/
def angleAddr : List Char → Option (List Char)
  | [] => none
  | c :: rest => if c == '<' then some (untilGt rest) else angleAddr rest

/--
Modelled from the Python standard library (an external collaborator of the
script): `email.utils.parseaddr` returns the addr-spec of a name-addr
(`Name <addr>` yields `addr`), and returns bare address strings as they
are.  This models the routine for exactly those two input shapes, the ones
the script's validation deals with.
-/
def parseaddrAddr (s : String) : String :=
  match angleAddr s.data with
  | some addr => String.mk addr
  | none => s

/-- The function `is_valid_email` (setup_project.py lines 16 to 34). -/
def is_valid_email (email : String) : Bool :=
  if email.isEmpty || !(email.data.contains '@') then false
  else
    let parsed := parseaddrAddr email
    if parsed.isEmpty || !(parsed.data.contains '@') then false
    else reFullMatch emailRE parsed.data

/-- Python whitespace, for `str.strip()` on the ASCII inputs at hand. -/
def isSpaceChar (c : Char) : Bool :=
  c == ' ' || c == '\t' || c == '\n' || c == '\r' || c == '\x0b' || c == '\x0c'

/-- Python `str.strip()`. -/
def pyStrip (s : String) : String :=
  String.mk (((s.data.dropWhile isSpaceChar).reverse.dropWhile isSpaceChar).reverse)

/-- The default author email (line 117). -/
def defaultEmail : String := "your.email@example.com"

/--
The author-email prompt loop (lines 114 to 124), as a function of the
stream of operator answers: empty input short-circuits to the default
without consulting the validity check, valid input is accepted as given,
invalid input repeats the loop.  `none` means the stream ran out (the real
loop would keep prompting).
-/
def promptEmail : List String → Option String
  | [] => none
  | i :: rest =>
    let e := pyStrip i
    if e.isEmpty then some defaultEmail
    else if is_valid_email e then some e
    else promptEmail rest

/-- Class `[a-zA-Z0-9._-]`, the interior class of the project-name pattern. -/
def nameMidCls (c : Char) : Bool := c.isAlphanum || c == '.' || c == '_' || c == '-'

/-- The project-name pattern `^[a-zA-Z0-9][a-zA-Z0-9._-]*[a-zA-Z0-9]$|^[a-zA-Z0-9]$`
(lines 89 to 91). -/
def projectNameRE : RE :=
  .alt (.seq (.cls Char.isAlphanum) (.seq (.star nameMidCls) (.cls Char.isAlphanum)))
    (.cls Char.isAlphanum)

/-- Acceptance of a project name by the input loop (lines 82 to 99). -/
def validProjectName (s : String) : Bool := reFullMatch projectNameRE s.data

/-- Python `re.sub(r"[^a-zA-Z0-9]", "_", ·)` applied characterwise (line 102). -/
def toUnderscoreChar (c : Char) : Char := if c.isAlphanum then c else '_'

/-- Python `re.sub(r"_+", "_", ·)`: collapse each run of underscores to one (line 103). -/
def collapseU : List Char → List Char
  | [] => []
  | c :: cs => if c == '_' && (cs.head? == some '_') then collapseU cs else c :: collapseU cs

/-- Python `.strip("_")` (line 103). -/
def stripUnd (l : List Char) : List Char :=
  ((l.dropWhile (fun c => c == '_')).reverse.dropWhile (fun c => c == '_')).reverse

/--
Module-identifier derivation (lines 102 to 103): replace every character
outside `[a-zA-Z0-9]` by `_`, lower-case, collapse underscore runs, strip
outer underscores.
-/
def deriveModuleChars (l : List Char) : List Char :=
  stripUnd (collapseU ((l.map toUnderscoreChar).map Char.toLower))

def deriveModuleName (s : String) : String := String.mk (deriveModuleChars s.data)

/-- Python `split("_")` on character lists. -/
def splitUnd : List Char → List (List Char)
  | [] => [[]]
  | c :: cs =>
    match splitUnd cs with
    | [] => [[]]
    | w :: ws => if c == '_' then [] :: w :: ws else (c :: w) :: ws

/-- Python `str.capitalize`: first character upper-cased, rest lower-cased. -/
def capWord : List Char → List Char
  | [] => []
  | c :: cs => Char.toUpper c :: cs.map Char.toLower

/-- Main-class derivation (lines 131 to 133): capitalize the underscore
separated words of the module identifier; fall back to a fixed name if the
result is empty. -/
def deriveMainClass (m : String) : String :=
  let j := ((splitUnd m.data).map capWord).flatten
  if j.isEmpty then "MainClass" else String.mk j

/-- The default project description (lines 105 to 107). -/
def defaultDescription (projectName : String) : String := "A Python project: " ++ projectName

/-- The replacement dictionary (lines 136 to 144), in its insertion order. -/
def buildReplacements (projectName moduleName description authorName authorEmail
    githubUser mainClass : String) : List (String × String) :=
  [("\x7b\x7bPROJECT_NAME\x7d\x7d", projectName),
   ("\x7b\x7bMODULE_NAME\x7d\x7d", moduleName),
   ("\x7b\x7bPROJECT_DESCRIPTION\x7d\x7d", description),
   ("\x7b\x7bAUTHOR_NAME\x7d\x7d", authorName),
   ("\x7b\x7bAUTHOR_EMAIL\x7d\x7d", authorEmail),
   ("\x7b\x7bGITHUB_USERNAME\x7d\x7d", githubUser),
   ("\x7b\x7bMAIN_CLASS\x7d\x7d", mainClass)]

/-- A string-level table viewed at the character level. -/
def tableChars (tbl : List (String × String)) : List (List Char × List Char) :=
  tbl.map (fun q => (q.1.data, q.2.data))

/-- The replacement loop at the `String` level, as run on file names and on
file contents (lines 41 to 42 and 56 to 58). -/
def applyReplacements (tbl : List (String × String)) (s : String) : String :=
  String.mk (applyAll (tableChars tbl) s.data)

/- ===================== 6. Well-formedness of the module identifier ===================== -/

/-- No two consecutive underscores. -/
def noDoubleUnd : List Char → Bool
  | [] => true
  | [_] => true
  | a :: b :: cs => !(a == '_' && b == '_') && noDoubleUnd (b :: cs)

theorem noDoubleUnd_cons (a : Char) (l : List Char) :
    noDoubleUnd (a :: l) = (!(a == '_' && l.head? == some '_') && noDoubleUnd l) := by
  cases l with
  | nil => simp [noDoubleUnd]
  | cons b cs => rfl

/-- The spec's shape for a module identifier: only lower-case letters,
digits and single underscores, none leading or trailing. -/
def cleanModuleChars (l : List Char) : Bool :=
  l.all (fun c => c.isLower || c.isDigit || c == '_') &&
    (noDoubleUnd l && (!(l.head? == some '_') && !(l.getLast? == some '_')))

theorem char_toNat_ofNat {n : Nat} (h : n < 55296) : (Char.ofNat n).toNat = n := by
  simp [Char.ofNat, Nat.isValidChar, h, Char.ofNatAux, Char.toNat, UInt32.toNat, BitVec.toNat_ofNatLt]

theorem char_isUpper_iff (c : Char) : c.isUpper = true ↔ 65 ≤ c.toNat ∧ c.toNat ≤ 90 := by
  constructor
  · intro h
    simpa [Char.isUpper, UInt32.le_def, BitVec.le_def] using h
  · intro h
    simp [Char.isUpper, UInt32.le_def, BitVec.le_def]
    exact h

theorem char_isLower_iff (c : Char) : c.isLower = true ↔ 97 ≤ c.toNat ∧ c.toNat ≤ 122 := by
  constructor
  · intro h
    simpa [Char.isLower, UInt32.le_def, BitVec.le_def] using h
  · intro h
    simp [Char.isLower, UInt32.le_def, BitVec.le_def]
    exact h

theorem char_isDigit_iff (c : Char) : c.isDigit = true ↔ 48 ≤ c.toNat ∧ c.toNat ≤ 57 := by
  constructor
  · intro h
    simpa [Char.isDigit, UInt32.le_def, BitVec.le_def] using h
  · intro h
    simp [Char.isDigit, UInt32.le_def, BitVec.le_def]
    exact h

theorem char_toLower_of_upper {y : Char} (h : 65 ≤ y.toNat ∧ y.toNat ≤ 90) :
    Char.toLower y = Char.ofNat (y.toNat + 32) := by
  rw [Char.toLower]
  exact if_pos ⟨h.1, h.2⟩

theorem char_toLower_of_not_upper {y : Char} (h : ¬ (65 ≤ y.toNat ∧ y.toNat ≤ 90)) :
    Char.toLower y = y := by
  rw [Char.toLower]
  exact if_neg h

theorem char_lower_or_digit {y : Char} (h : y.isAlphanum = true) :
    ((Char.toLower y).isLower || (Char.toLower y).isDigit) = true := by
  rw [Char.isAlphanum, Bool.or_eq_true, Char.isAlpha, Bool.or_eq_true] at h
  rcases h with (h | h) | h
  · rw [char_isUpper_iff] at h
    rw [char_toLower_of_upper h]
    have ht : (Char.ofNat (y.toNat + 32)).toNat = y.toNat + 32 := char_toNat_ofNat (by omega)
    have hlow : (Char.ofNat (y.toNat + 32)).isLower = true := by
      rw [char_isLower_iff, ht]
      omega
    rw [hlow]
    rfl
  · rw [char_isLower_iff] at h
    rw [char_toLower_of_not_upper (by omega)]
    rw [Bool.or_eq_true]
    exact Or.inl ((char_isLower_iff y).mpr (by omega))
  · rw [char_isDigit_iff] at h
    rw [char_toLower_of_not_upper (by omega)]
    rw [Bool.or_eq_true]
    exact Or.inr ((char_isDigit_iff y).mpr (by omega))

theorem collapseU_cons (c : Char) (cs : List Char) :
    collapseU (c :: cs) =
      if c == '_' && (cs.head? == some '_') then collapseU cs else c :: collapseU cs := rfl

theorem collapseU_head {l : List Char} (h : (collapseU l).head? = some '_') :
    l.head? = some '_' := by
  cases l with
  | nil => simp [collapseU] at h
  | cons c cs =>
    rw [collapseU_cons] at h
    by_cases hc : (c == '_' && (cs.head? == some '_')) = true
    · have hc1 := hc
      rw [Bool.and_eq_true] at hc1
      have : c = '_' := beq_iff_eq.mp hc1.1
      rw [List.head?_cons, this]
    · rw [if_neg hc] at h
      rw [List.head?_cons] at h ⊢
      exact h

theorem noDoubleUnd_collapseU (l : List Char) : noDoubleUnd (collapseU l) = true := by
  induction l with
  | nil => rfl
  | cons c cs ih =>
    rw [collapseU_cons]
    by_cases hc : (c == '_' && (cs.head? == some '_')) = true
    · rw [if_pos hc]
      exact ih
    · rw [if_neg hc, noDoubleUnd_cons, ih, Bool.and_true]
      cases hcc : (c == '_' && ((collapseU cs).head? == some '_')) with
      | false => rfl
      | true =>
        rw [Bool.and_eq_true] at hcc
        have h1 : (collapseU cs).head? = some '_' := beq_iff_eq.mp hcc.2
        have h2 := collapseU_head h1
        refine absurd ?_ hc
        rw [Bool.and_eq_true]
        exact ⟨hcc.1, beq_iff_eq.mpr h2⟩

theorem mem_collapseU : ∀ {l : List Char} {x : Char}, x ∈ collapseU l → x ∈ l := by
  intro l
  induction l with
  | nil =>
    intro x h
    simp [collapseU] at h
  | cons c cs ih =>
    intro x h
    rw [collapseU_cons] at h
    by_cases hc : (c == '_' && (cs.head? == some '_')) = true
    · rw [if_pos hc] at h
      exact List.mem_cons_of_mem c (ih h)
    · rw [if_neg hc] at h
      rcases List.mem_cons.mp h with rfl | h2
      · exact List.mem_cons_self x cs
      · exact List.mem_cons_of_mem c (ih h2)

theorem head?_dropWhile_not (p : Char → Bool) :
    ∀ (l : List Char) {x : Char}, (l.dropWhile p).head? = some x → p x = false := by
  intro l
  induction l with
  | nil =>
    intro x h
    simp [List.dropWhile] at h
  | cons c cs ih =>
    intro x h
    rw [List.dropWhile_cons] at h
    by_cases hc : p c = true
    · rw [if_pos hc] at h
      exact ih h
    · rw [if_neg hc, List.head?_cons, Option.some.injEq] at h
      cases hpc : p c with
      | false => rw [← h]; exact hpc
      | true => exact absurd hpc hc

theorem noDoubleUnd_tail {a : Char} {l : List Char} (h : noDoubleUnd (a :: l) = true) :
    noDoubleUnd l = true := by
  rw [noDoubleUnd_cons, Bool.and_eq_true] at h
  exact h.2

theorem noDoubleUnd_dropWhile (p : Char → Bool) :
    ∀ (l : List Char), noDoubleUnd l = true → noDoubleUnd (l.dropWhile p) = true := by
  intro l
  induction l with
  | nil => intro h; exact h
  | cons c cs ih =>
    intro h
    rw [List.dropWhile_cons]
    by_cases hc : p c = true
    · rw [if_pos hc]
      exact ih (noDoubleUnd_tail h)
    · rw [if_neg hc]
      exact h

theorem noDoubleUnd_append_left : ∀ {l r : List Char}, noDoubleUnd (l ++ r) = true →
    noDoubleUnd l = true := by
  intro l
  induction l with
  | nil => intro r _; rfl
  | cons c l' ih =>
    intro r h
    rw [List.cons_append, noDoubleUnd_cons, Bool.and_eq_true] at h
    rw [noDoubleUnd_cons, Bool.and_eq_true]
    refine ⟨?_, ih h.2⟩
    cases l' with
    | nil => simp
    | cons d l'' => simpa using h.1

theorem dropTail_decomp (p : Char → Bool) (q : List Char) :
    (q.reverse.dropWhile p).reverse ++ (q.reverse.takeWhile p).reverse = q := by
  rw [← List.reverse_append, List.takeWhile_append_dropWhile, List.reverse_reverse]

theorem noDoubleUnd_stripUnd {l : List Char} (h : noDoubleUnd l = true) :
    noDoubleUnd (stripUnd l) = true := by
  have h1 : noDoubleUnd (l.dropWhile (fun c => c == '_')) = true := noDoubleUnd_dropWhile _ l h
  have h2 := dropTail_decomp (fun c => c == '_') (l.dropWhile (fun c => c == '_'))
  rw [← h2] at h1
  unfold stripUnd
  exact noDoubleUnd_append_left h1

theorem stripUnd_head (l : List Char) : (!((stripUnd l).head? == some '_')) = true := by
  unfold stripUnd
  cases hs : ((l.dropWhile (fun c => c == '_')).reverse.dropWhile (fun c => c == '_')).reverse with
  | nil => rfl
  | cons c r =>
    have h2 := dropTail_decomp (fun c => c == '_') (l.dropWhile (fun c => c == '_'))
    rw [hs] at h2
    have hq : (l.dropWhile (fun c => c == '_')).head? = some c := by
      rw [← h2]
      rfl
    have hpc : (c == '_') = false := head?_dropWhile_not (fun c => c == '_') l hq
    simp [hpc]

theorem stripUnd_last (l : List Char) : (!((stripUnd l).getLast? == some '_')) = true := by
  have hrev : (stripUnd l).getLast? =
      ((l.dropWhile (fun c => c == '_')).reverse.dropWhile (fun c => c == '_')).head? :=
    List.getLast?_reverse _
  cases hh : ((l.dropWhile (fun c => c == '_')).reverse.dropWhile (fun c => c == '_')).head? with
  | none =>
    rw [hrev, hh]
    rfl
  | some x =>
    have hx : (x == '_') = false := head?_dropWhile_not (fun c => c == '_') _ hh
    rw [hrev, hh]
    simp [hx]

theorem mem_stripUnd {l : List Char} {x : Char} (h : x ∈ stripUnd l) : x ∈ l := by
  unfold stripUnd at h
  have h1 := List.mem_reverse.mp h
  have h2 := List.Sublist.mem h1 (List.dropWhile_sublist _)
  have h3 := List.mem_reverse.mp h2
  exact List.Sublist.mem h3 (List.dropWhile_sublist _)

theorem deriveModuleChars_clean (l : List Char) :
    cleanModuleChars (deriveModuleChars l) = true := by
  unfold cleanModuleChars deriveModuleChars
  rw [Bool.and_eq_true, Bool.and_eq_true, Bool.and_eq_true]
  refine ⟨?_, ?_, ?_, ?_⟩
  · rw [List.all_eq_true]
    intro x hx
    have hx1 : x ∈ collapseU ((l.map toUnderscoreChar).map Char.toLower) := mem_stripUnd hx
    have hx2 : x ∈ (l.map toUnderscoreChar).map Char.toLower := mem_collapseU hx1
    rw [List.mem_map] at hx2
    rcases hx2 with ⟨y, hy, rfl⟩
    rw [List.mem_map] at hy
    rcases hy with ⟨z, _, rfl⟩
    by_cases hz : z.isAlphanum = true
    · have h2 : toUnderscoreChar z = z := by rw [toUnderscoreChar, if_pos hz]
      show ((Char.toLower (toUnderscoreChar z)).isLower ||
        (Char.toLower (toUnderscoreChar z)).isDigit || (Char.toLower (toUnderscoreChar z) == '_')) = true
      rw [h2, Bool.or_eq_true]
      exact Or.inl (char_lower_or_digit hz)
    · have h2 : toUnderscoreChar z = '_' := by rw [toUnderscoreChar, if_neg hz]
      show ((Char.toLower (toUnderscoreChar z)).isLower ||
        (Char.toLower (toUnderscoreChar z)).isDigit || (Char.toLower (toUnderscoreChar z) == '_')) = true
      rw [h2]
      decide
  · exact noDoubleUnd_stripUnd (noDoubleUnd_collapseU _)
  · exact stripUnd_head _
  · exact stripUnd_last _

/- ===================== 7. The file-system model ===================== -/

mutual
/-- A file-system tree: a file with content, or a directory with children. -/
inductive FsTree where
  | file (name content : List Char)
  | dir (name : List Char) (children : FsList)
deriving DecidableEq
/-- Children lists, as a dedicated type so that all tree recursions are
structural and kernel-computable. -/
inductive FsList where
  | nil
  | cons (t : FsTree) (ts : FsList)
deriving DecidableEq
end

def FsTree.name : FsTree → List Char
  | .file n _ => n
  | .dir n _ => n

def FsList.append : FsList → FsList → FsList
  | .nil, r => r
  | .cons t ts, r => .cons t (ts.append r)

mutual
/--
The effect of `rename_paths` (lines 48 to 73) on every entry: the
bottom-up `os.walk` visits each file and directory under the base path
exactly once and renames it by running every table entry over its name, so
on the tree model every name below the root is mapped through the
replacement loop.
-/
def renameNode (tbl : List (List Char × List Char)) : FsTree → FsTree
  | .file n c => .file (applyAll tbl n) c
  | .dir n ch => .dir (applyAll tbl n) (renameList tbl ch)
def renameList (tbl : List (List Char × List Char)) : FsList → FsList
  | .nil => .nil
  | .cons t ts => .cons (renameNode tbl t) (renameList tbl ts)
end

/-- The call `rename_paths(base_path, ...)` never renames the base path itself:
only names below the root change. -/
def renameInside (tbl : List (List Char × List Char)) : FsTree → FsTree
  | .file n c => .file n c
  | .dir n ch => .dir n (renameList tbl ch)

/-- Python `pathlib.PurePath.suffix`: the part of the name from its last dot, when
that dot is neither the first nor the last character; empty otherwise. -/
def pathSuffix (name : List Char) : List Char :=
  let after := (name.reverse.takeWhile (fun c => !(c == '.'))).reverse
  if after.length + 1 < name.length ∧ 0 < after.length then '.' :: after else []

/-- The extension allow-list of the content pass (line 231). -/
def allowedSuffixes : List (List Char) :=
  [".py".data, ".md".data, ".txt".data, ".toml".data, ".yml".data, ".yaml".data]

def allowedFile (name : List Char) : Bool := allowedSuffixes.contains (pathSuffix name)

mutual
/-- The content-substitution walk (lines 228 to 232): every file whose
(post-rename) name carries an allow-listed extension has the replacement
loop run over its content. -/
def substNode (tbl : List (List Char × List Char)) : FsTree → FsTree
  | .file n c => .file n (if allowedFile n then applyAll tbl c else c)
  | .dir n ch => .dir n (substList tbl ch)
def substList (tbl : List (List Char × List Char)) : FsList → FsList
  | .nil => .nil
  | .cons t ts => .cons (substNode tbl t) (substList tbl ts)
end

/-- A string is free of every key of the table. -/
def tokFreeStr (tbl : List (List Char × List Char)) (s : List Char) : Bool :=
  tbl.all (fun q => !(containsTok q.1 s))

mutual
/-- Every name in the tree (the root's included) is free of every table key. -/
def namesFree (tbl : List (List Char × List Char)) : FsTree → Bool
  | .file n _ => tokFreeStr tbl n
  | .dir n ch => tokFreeStr tbl n && namesFreeList tbl ch
def namesFreeList (tbl : List (List Char × List Char)) : FsList → Bool
  | .nil => true
  | .cons t ts => namesFree tbl t && namesFreeList tbl ts
end

/-- Every name strictly below the root is free of every table key. -/
def innerNamesFree (tbl : List (List Char × List Char)) : FsTree → Bool
  | .file _ _ => true
  | .dir _ ch => namesFreeList tbl ch

mutual
/-- Contents of allow-listed files are free of every table key. -/
def contentsFree (tbl : List (List Char × List Char)) : FsTree → Bool
  | .file n c => if allowedFile n then tokFreeStr tbl c else true
  | .dir _ ch => contentsFreeList tbl ch
def contentsFreeList (tbl : List (List Char × List Char)) : FsList → Bool
  | .nil => true
  | .cons t ts => contentsFree tbl t && contentsFreeList tbl ts
end

theorem tokFreeStr_applyAll {tbl : List (List Char × List Char)} (h : cleanTable tbl = true)
    (s : List Char) : tokFreeStr tbl (applyAll tbl s) = true := by
  rw [tokFreeStr, List.all_eq_true]
  intro q hq
  rw [applyAll_kills tbl h q hq s]
  rfl

mutual
theorem namesFree_after {tbl : List (List Char × List Char)} (h : cleanTable tbl = true) :
    (t : FsTree) → namesFree tbl (substNode tbl (renameNode tbl t)) = true
  | .file n c => tokFreeStr_applyAll h n
  | .dir n ch => by
    rw [renameNode, substNode, namesFree, Bool.and_eq_true]
    exact ⟨tokFreeStr_applyAll h n, namesFreeList_after h ch⟩
theorem namesFreeList_after {tbl : List (List Char × List Char)} (h : cleanTable tbl = true) :
    (ts : FsList) → namesFreeList tbl (substList tbl (renameList tbl ts)) = true
  | .nil => rfl
  | .cons t ts => by
    rw [renameList, substList, namesFreeList, Bool.and_eq_true]
    exact ⟨namesFree_after h t, namesFreeList_after h ts⟩
end

mutual
theorem contentsFree_after {tbl : List (List Char × List Char)} (h : cleanTable tbl = true) :
    (t : FsTree) → contentsFree tbl (substNode tbl (renameNode tbl t)) = true
  | .file n c => by
    rw [renameNode, substNode, contentsFree]
    by_cases ha : allowedFile (applyAll tbl n) = true
    · rw [if_pos ha, if_pos ha]
      exact tokFreeStr_applyAll h c
    · rw [if_neg ha]
  | .dir n ch => by
    rw [renameNode, substNode, contentsFree]
    exact contentsFreeList_after h ch
theorem contentsFreeList_after {tbl : List (List Char × List Char)} (h : cleanTable tbl = true) :
    (ts : FsList) → contentsFreeList tbl (substList tbl (renameList tbl ts)) = true
  | .nil => rfl
  | .cons t ts => by
    rw [renameList, substList, contentsFreeList, Bool.and_eq_true]
    exact ⟨contentsFree_after h t, contentsFreeList_after h ts⟩
end

/- ===================== 8. fix_src_layout and the run control flow ===================== -/

def findChild (nm : List Char) : FsList → Option FsTree
  | .nil => none
  | .cons t ts => if t.name == nm then some t else findChild nm ts

def removeChild (nm : List Char) : FsList → FsList
  | .nil => .nil
  | .cons t ts => if t.name == nm then removeChild nm ts else .cons t (removeChild nm ts)

def replaceChild (nm : List Char) (newT : FsTree) : FsList → FsList
  | .nil => .nil
  | .cons t ts => if t.name == nm then .cons newT ts else .cons t (replaceChild nm newT ts)

def setTreeName (nm : List Char) : FsTree → FsTree
  | .file _ c => .file nm c
  | .dir _ ch => .dir nm ch

def srcName : List Char := "src".data

/-- The literal placeholder module directory name. -/
def tokMODULE : List Char := "\x7b\x7bMODULE_NAME\x7d\x7d".data

/--
`fix_src_layout(target_dir, module_name)` (lines 147 to 157) over the tree
model: if `<target>/src/<module>` already exists, nothing happens; else the
`src` directory is created if missing (`mkdir(parents=True, exist_ok=True)`
raises when `src` exists as a file), the template's placeholder module
directory `templateModule` is copied in under the module name
(`shutil.copytree`), and the old placeholder directory is removed if still
present (`shutil.rmtree` raises on a non-directory).  Errors model the
exceptions the Python calls would raise, which `setup_project` does not
catch.
-/
def fixSrcLayout (templateModule : FsTree) (m : List Char) (target : FsTree) :
    Except String FsTree :=
  match target with
  | .file _ _ => .error "target is not a directory"
  | .dir tn ch =>
    match findChild srcName ch with
    | some (.dir sn sch) =>
      if (findChild m sch).isSome then .ok (.dir tn ch)
      else
        let sch1 := sch.append (.cons (setTreeName m templateModule) .nil)
        match findChild tokMODULE sch1 with
        | some (.dir _ _) =>
          .ok (.dir tn (replaceChild srcName (.dir sn (removeChild tokMODULE sch1)) ch))
        | some (.file _ _) => .error "rmtree: not a directory"
        | none => .ok (.dir tn (replaceChild srcName (.dir sn sch1) ch))
    | some (.file _ _) => .error "mkdir: src exists and is not a directory"
    | none =>
      let sch1 := FsList.cons (setTreeName m templateModule) .nil
      match findChild tokMODULE sch1 with
      | some (.dir _ _) =>
        .ok (.dir tn (ch.append (.cons (.dir srcName (removeChild tokMODULE sch1)) .nil)))
      | some (.file _ _) => .error "rmtree: not a directory"
      | none => .ok (.dir tn (ch.append (.cons (.dir srcName sch1) .nil)))

/-- Whether `<target>/src/<module>` exists (any kind of entry), the short-circuit
condition of `fix_src_layout`. -/
def srcHasModule (m : List Char) : FsTree → Bool
  | .file _ _ => false
  | .dir _ ch =>
    match findChild srcName ch with
    | some (.dir _ sch) => (findChild m sch).isSome
    | _ => false

/-- Python `str.lower()` on the ASCII answers at hand. -/
def strLower (s : String) : String := String.mk (s.data.map Char.toLower)

/-- The names excluded from the template copy (line 214). -/
def ignoredNames : List (List Char) :=
  ["setup_project.py".data, ".git".data, "__pycache__".data]

mutual
/-- Python `shutil.copytree` with the script's `ignore_patterns`: the copied tree
without the ignored entries, applied at every level. -/
def copyFiltered : FsTree → FsTree
  | .file n c => .file n c
  | .dir n ch => .dir n (copyFilteredList ch)
def copyFilteredList : FsList → FsList
  | .nil => .nil
  | .cons t ts =>
    if ignoredNames.contains t.name then copyFilteredList ts
    else .cons (copyFiltered t) (copyFilteredList ts)
end

/-- Outcome of the target-resolution and materialization phase. -/
inductive RunOutcome where
  | exited (code : Nat) (fs : Option FsTree)
  | raised (msg : String) (fs : Option FsTree)
  | completed (fs : FsTree)
deriving DecidableEq

/-- The copy, layout fix, rename and substitution phases (lines 206 to
232), run on a target directory `t0` that passed the guards. -/
def materializeFrom (eqTemplate : Bool) (template templateModule : FsTree) (m : List Char)
    (tbl : List (List Char × List Char)) (t0 : FsTree) : RunOutcome :=
  let t1 :=
    if eqTemplate then t0
    else
      match t0, template with
      | .dir n _, .dir _ tch => .dir n (copyFilteredList tch)
      | _, _ => t0
  match fixSrcLayout templateModule m t1 with
  | .error e => .raised e (some t1)
  | .ok t2 => .completed (substNode tbl (renameInside tbl t2))

/--
Lines 183 to 232 of `setup_project`: the secondary in-place confirmation
(`strip().lower()` compared against the literal `"yes"`), the
non-empty-target guard, directory creation, template copy (skipped when
the target is the template root), `fix_src_layout`, path renaming and
content substitution.  `eqCwd` abstracts
`target_dir.resolve() == Path(".").resolve()` and `eqTemplate` abstracts
`target_dir.resolve() == template_dir.resolve()`; `target` is the state of
the target path (`none` when the path does not exist) and `targetName` the
name the created directory would get.  Exits carry the exit code and the
untouched target state.
-/
def materialize (eqCwd eqTemplate : Bool) (confirmCurrent : String) (targetName : List Char)
    (target : Option FsTree) (template templateModule : FsTree) (m : List Char)
    (tbl : List (List Char × List Char)) : RunOutcome :=
  if eqCwd && !(strLower (pyStrip confirmCurrent) == "yes") then .exited 1 target
  else
    match target with
    | some (.file n c) => .raised "iterdir: not a directory" (some (.file n c))
    | some (.dir n (.cons t ts)) => .exited 1 (some (.dir n (.cons t ts)))
    | some (.dir n .nil) => materializeFrom eqTemplate template templateModule m tbl (.dir n .nil)
    | none => materializeFrom eqTemplate template templateModule m tbl (.dir targetName .nil)

/-- The target directory exists and has at least one entry. -/
def hasEntries : FsTree → Bool
  | .file _ _ => false
  | .dir _ .nil => false
  | .dir _ (.cons _ _) => true

/- ===================== 9. The content pass with per-file failures ===================== -/

/-- A file visited by the content pass, with the failure modes of
`read_text` (read or decode error) and `write_text` (write error)
abstracted as flags. -/
structure SFile where
  name : List Char
  content : List Char
  readOk : Bool
  writeOk : Bool
deriving DecidableEq

/-- The body of `replace_in_file` before its `except` clause (lines 40 to
43): read the file, run every replacement, write the result back.  A read
or decode failure stops before substituting; a write failure stops before
anything lands on disk, so the stored content stays unchanged either way. -/
def replaceInFileCore (tbl : List (List Char × List Char)) (f : SFile) : Except String SFile :=
  if !f.readOk then .error "read"
  else if !f.writeOk then .error "write"
  else .ok ⟨f.name, applyAll tbl f.content, f.readOk, f.writeOk⟩

/-- The function `replace_in_file` (lines 37 to 45): any failure is caught inside the
function, turned into a warning that names the file, and leaves the file
as it was. -/
def replace_in_file (tbl : List (List Char × List Char)) (f : SFile) : SFile × Option String :=
  match replaceInFileCore tbl f with
  | .ok f2 => (f2, none)
  | .error e => (f, some ("Warning: Could not process " ++ String.mk f.name ++ ": " ++ e))

/-- The content-substitution walk (lines 228 to 232) over the files the
walk visits, in order: allow-listed files go through `replace_in_file`,
and the walk always moves on to the next file. -/
def contentPass (tbl : List (List Char × List Char)) : List SFile → List SFile × List String
  | [] => ([], [])
  | f :: fs =>
    let step := if allowedFile f.name then replace_in_file tbl f else (f, none)
    let rest := contentPass tbl fs
    (step.1 :: rest.1, step.2.toList ++ rest.2)

/-- What one file becomes: substituted exactly when it is allow-listed and
both its read and its write go through; untouched otherwise. -/
def procFile (tbl : List (List Char × List Char)) (f : SFile) : SFile :=
  if allowedFile f.name && (f.readOk && f.writeOk) then
    ⟨f.name, applyAll tbl f.content, f.readOk, f.writeOk⟩
  else f

/-- A file the pass warns about: allow-listed but failing to read or write. -/
def fileFails (f : SFile) : Bool := allowedFile f.name && (!f.readOk || !f.writeOk)

/-- The warning the pass prints for a failing file, naming the file. -/
def failMsg (f : SFile) : String :=
  "Warning: Could not process " ++ String.mk f.name ++ ": " ++
    (if !f.readOk then "read" else "write")

/- ===================== 10. The claims ===================== -/

/-- The table of a canonical run: project `demo-app` with all other
answers left at their defaults. -/
def tblDemo : List (String × String) :=
  buildReplacements "demo-app" "demo_app" "A Python project: demo-app" "Your Name"
    "your.email@example.com" "yourusername" "DemoApp"

/-- A minimal template root: it always contains at least the setup script. -/
def templateRootCE : FsTree :=
  .dir "python-library-template".data
    (.cons (.file "setup_project.py".data "".data) .nil)

/-- The template's placeholder module directory. -/
def moduleTplCE : FsTree := .dir tokMODULE (.cons (.file "__init__.py".data "".data) .nil)

/--
C1: with the resolved target equal to the current working directory (the
template root — which always contains at least the setup script, so it is
never empty) and the secondary confirmation answered exactly "yes", the
run does not proceed in in-place mode as the spec promises: it falls into
the non-empty-directory guard on the very next line and exits with code 1,
leaving the tree untouched.  The code's own confirmation prompt ("Type
'yes' to confirm") promises continuation, and the in-place branch of the
copy step (line 216) is unreachable, so this is a defect of the code, not
of the claim.
-/
theorem C1_inplace_yes_still_exits :
    materialize true true "yes" "python-library-template".data (some templateRootCE)
      templateRootCE moduleTplCE "demo_app".data (tableChars tblDemo) =
      RunOutcome.exited 1 (some templateRootCE) := by decide

/--
C2: every project name accepted by the identifier grammar
`^[A-Za-z0-9][A-Za-z0-9._-]*[A-Za-z0-9]$|^[A-Za-z0-9]$` derives a module
identifier containing only lower-case alphanumeric characters and single
underscores, with no leading and no trailing underscore.
-/
theorem C2_module_identifier_wellformed (s : String) (h : validProjectName s = true) :
    cleanModuleChars (deriveModuleName s).data = true :=
  deriveModuleChars_clean s.data

theorem C2_module_identifier_wellformed_witness :
    validProjectName "My.Project-Name_1" = true ∧
      cleanModuleChars (deriveModuleName "My.Project-Name_1").data = true :=
  ⟨by decide, C2_module_identifier_wellformed "My.Project-Name_1" (by decide)⟩

/--
C3: the project name "demo-app" derives module identifier "demo_app" and
class identifier "DemoApp"; and whenever splitting a module identifier on
underscores, capitalizing and concatenating yields the empty string, the
class identifier falls back to "MainClass".
-/
theorem C3_demo_app_identifiers :
    deriveModuleName "demo-app" = "demo_app" ∧ deriveMainClass "demo_app" = "DemoApp" ∧
      ∀ m : String, ((splitUnd m.data).map capWord).flatten = [] →
        deriveMainClass m = "MainClass" := by
  refine ⟨by decide, by decide, ?_⟩
  intro m hm
  simp [deriveMainClass, hm]

theorem C3_demo_app_identifiers_witness :
    ((splitUnd ("_" : String).data).map capWord).flatten = [] ∧
      deriveMainClass "_" = "MainClass" :=
  ⟨by decide, C3_demo_app_identifiers.2.2 "_" (by decide)⟩

/--
C4: the email validity check accepts "user@example.com" and rejects
"not-an-email" and "user@"; an empty answer to the email prompt is
accepted by substituting the default address and leaving the loop at once,
without consulting the validity check.
-/
theorem C4_email_validation :
    is_valid_email "user@example.com" = true ∧ is_valid_email "not-an-email" = false ∧
      is_valid_email "user@" = false ∧
      ∀ rest : List String, promptEmail ("" :: rest) = some defaultEmail := by
  refine ⟨by decide, by decide, by decide, ?_⟩
  intro rest
  rfl

/-- The table of a run whose free-text description is the literal
placeholder token `\x7b\x7bMODULE_NAME\x7d\x7d` (a value the operator can
type), with every other answer defaulted. -/
def tblCE5 : List (String × String) :=
  buildReplacements "demo-app" (deriveModuleName "demo-app")
    "\x7b\x7bMODULE_NAME\x7d\x7d" "Your Name" defaultEmail "yourusername"
    (deriveMainClass (deriveModuleName "demo-app"))

/-- A target tree holding one Markdown file whose content is the
description placeholder. -/
def treeCE5 : FsTree :=
  .dir "demo-app".data
    (.cons (.file "README.md".data "\x7b\x7bPROJECT_DESCRIPTION\x7d\x7d".data) .nil)

/--
C5 counterexample: with the legitimate description "\x7b\x7bMODULE_NAME\x7d\x7d",
after the Path Renamer and the Content Substituter both run, the table key
`\x7b\x7bMODULE_NAME\x7d\x7d` still occurs in the content of an
allow-listed file — substitution of the description key injects it after
the module key's own pass is already over.
-/
theorem C5_counterexample :
    contentsFree (tableChars tblCE5)
      (substNode (tableChars tblCE5) (renameInside (tableChars tblCE5) treeCE5)) = false := by
  decide

/--
C5 (amended): provided the replacement table built from the collected
metadata is clean — every key nonempty, and every value separated from
every key so that no value can contain, begin, or complete a placeholder
token — then after the Path Renamer and the Content Substituter both run
over the target tree, no placeholder token of the table occurs in any file
or directory name under the target, nor in the content of any file whose
extension is on the allow-list.
-/
theorem C5_no_tokens_after_passes (pn mn de an ae gu mc : String)
    (h : cleanTable (tableChars (buildReplacements pn mn de an ae gu mc)) = true) (t : FsTree) :
    innerNamesFree (tableChars (buildReplacements pn mn de an ae gu mc))
        (substNode (tableChars (buildReplacements pn mn de an ae gu mc))
          (renameInside (tableChars (buildReplacements pn mn de an ae gu mc)) t)) = true ∧
      contentsFree (tableChars (buildReplacements pn mn de an ae gu mc))
        (substNode (tableChars (buildReplacements pn mn de an ae gu mc))
          (renameInside (tableChars (buildReplacements pn mn de an ae gu mc)) t)) = true := by
  constructor
  · cases t with
    | file n c => rfl
    | dir n ch =>
      rw [renameInside, substNode, innerNamesFree]
      exact namesFreeList_after h ch
  · cases t with
    | file n c =>
      rw [renameInside, substNode, contentsFree]
      by_cases ha : allowedFile n = true
      · rw [if_pos ha, if_pos ha]
        exact tokFreeStr_applyAll h c
      · rw [if_neg ha]
    | dir n ch =>
      rw [renameInside, substNode, contentsFree]
      exact contentsFreeList_after h ch

theorem C5_no_tokens_after_passes_witness :
    cleanTable (tableChars tblDemo) = true ∧
      (innerNamesFree (tableChars tblDemo)
          (substNode (tableChars tblDemo) (renameInside (tableChars tblDemo) treeCE5)) = true ∧
        contentsFree (tableChars tblDemo)
          (substNode (tableChars tblDemo) (renameInside (tableChars tblDemo) treeCE5)) = true) :=
  ⟨by decide, C5_no_tokens_after_passes "demo-app" "demo_app" "A Python project: demo-app"
    "Your Name" "your.email@example.com" "yourusername" "DemoApp" (by decide) treeCE5⟩

/--
C6: the module-directory-fix step is idempotent: on a target where
`<target>/src/<module>` already exists, the directory-exists check
short-circuits, so the step returns the tree unchanged and raises no
error — running it a second time after a successful first run is a no-op.
-/
theorem C6_fix_src_layout_idempotent (templateModule : FsTree) (m : List Char) (t : FsTree)
    (h : srcHasModule m t = true) : fixSrcLayout templateModule m t = Except.ok t := by
  cases t with
  | file n c => simp [srcHasModule] at h
  | dir tn ch =>
    rw [srcHasModule] at h
    cases hf : findChild srcName ch with
    | none =>
      rw [hf] at h
      simp at h
    | some s =>
      cases s with
      | file a b =>
        rw [hf] at h
        simp at h
      | dir sn sch =>
        rw [hf] at h
        simp only [] at h
        simp [fixSrcLayout, hf, h]

/-- A target whose `src/demo_app` module directory is already in place. -/
def fixedTreeCE : FsTree :=
  .dir "proj".data (.cons (.dir srcName (.cons (.dir "demo_app".data .nil) .nil)) .nil)

theorem C6_fix_src_layout_idempotent_witness :
    srcHasModule "demo_app".data fixedTreeCE = true ∧
      fixSrcLayout moduleTplCE "demo_app".data fixedTreeCE = Except.ok fixedTreeCE :=
  ⟨by decide, C6_fix_src_layout_idempotent moduleTplCE "demo_app".data fixedTreeCE (by decide)⟩

/--
C7: when the resolved target directory is not the current working
directory, exists, and contains at least one entry, the run exits with
code 1 before performing any filesystem write: the outcome carries the
input target state unchanged, byte for byte.
-/
theorem C7_nonempty_target_exits_unchanged (eqTemplate : Bool) (conf : String)
    (targetName : List Char) (t : FsTree) (h : hasEntries t = true)
    (template templateModule : FsTree) (m : List Char)
    (tbl : List (List Char × List Char)) :
    materialize false eqTemplate conf targetName (some t) template templateModule m tbl =
      RunOutcome.exited 1 (some t) := by
  cases t with
  | file n c => simp [hasEntries] at h
  | dir n ch =>
    cases ch with
    | nil => simp [hasEntries] at h
    | cons t1 ts => simp [materialize]

theorem C7_nonempty_target_exits_unchanged_witness :
    hasEntries templateRootCE = true ∧
      materialize false false "" "x".data (some templateRootCE) templateRootCE moduleTplCE
        "demo_app".data (tableChars tblDemo) = RunOutcome.exited 1 (some templateRootCE) :=
  ⟨by decide, C7_nonempty_target_exits_unchanged false "" "x".data templateRootCE (by decide)
    templateRootCE moduleTplCE "demo_app".data (tableChars tblDemo)⟩

/--
C8: during content substitution, each file's outcome depends on that file
alone: allow-listed files that read and write successfully get all
replacements; a per-file read, decode, or write failure leaves exactly
that file unchanged and contributes one warning naming the file; the walk
always reaches every remaining file, so no per-file error aborts the run.
-/
theorem C8_per_file_errors_isolated (tbl : List (List Char × List Char)) (files : List SFile) :
    contentPass tbl files = (files.map (procFile tbl), (files.filter fileFails).map failMsg) := by
  induction files with
  | nil => rfl
  | cons f fs ih =>
    rcases f with ⟨n, co, r, w⟩
    rw [contentPass, ih]
    cases ha : allowedFile n with
    | false => simp [procFile, fileFails, failMsg, ha]
    | true =>
      cases r <;> cases w <;>
        simp [replace_in_file, replaceInFileCore, procFile, fileFails, failMsg, ha]

/-- The table of a run whose project is legitimately named "MODULE_NAME"
(the grammar allows upper-case names and underscores), with every other
answer defaulted; its project-name value can complete a module-name
placeholder token. -/
def tblCE9 : List (String × String) :=
  buildReplacements "MODULE_NAME" (deriveModuleName "MODULE_NAME")
    (defaultDescription "MODULE_NAME") "Your Name" defaultEmail "yourusername"
    (deriveMainClass (deriveModuleName "MODULE_NAME"))

/--
C9 counterexample: for the legitimate project name "MODULE_NAME" (accepted
by the grammar) and the name string `\x7b\x7b\x7b\x7bPROJECT_NAME\x7d\x7d\x7d\x7d`,
applying the seven table entries in reversed order gives a different
result from the table's iteration order: the iteration order first turns
the inner token into `\x7b\x7bMODULE_NAME\x7d\x7d` and then rewrites it,
while the reversed order leaves it in place.
-/
theorem C9_counterexample :
    validProjectName "MODULE_NAME" = true ∧
      (tblCE9.reverse).Perm tblCE9 ∧
      applyReplacements tblCE9.reverse "\x7b\x7b\x7b\x7bPROJECT_NAME\x7d\x7d\x7d\x7d" ≠
        applyReplacements tblCE9 "\x7b\x7b\x7b\x7bPROJECT_NAME\x7d\x7d\x7d\x7d" :=
  ⟨by decide, List.reverse_perm _, by decide⟩

/--
C9 (amended): provided the seven-entry replacement table is good — every
key nonempty, distinct keys mutually separated, and every value separated
from every key, so that no value can contain, begin, or complete a
placeholder token (conditions the defaulted run satisfies, and which fail
exactly when a value such as the project name "MODULE_NAME" carries token
material) — applying the seven entries as literal substring replacements
in any permutation of the table's order yields, on every name string, the
same result as the table's iteration order.
-/
theorem C9_permutation_invariant (pn mn de an ae gu mc : String)
    (h : goodTable (tableChars (buildReplacements pn mn de an ae gu mc)) = true)
    (tbl' : List (String × String))
    (hp : tbl'.Perm (buildReplacements pn mn de an ae gu mc)) (s : String) :
    applyReplacements tbl' s = applyReplacements (buildReplacements pn mn de an ae gu mc) s := by
  have h2 := h
  rw [tableChars] at h2
  have := applyAll_perm h2 (List.Perm.map (fun q => (q.1.data, q.2.data)) hp) s.data
  unfold applyReplacements tableChars
  exact congrArg String.mk this

theorem C9_permutation_invariant_witness :
    goodTable (tableChars tblDemo) = true ∧
      applyReplacements tblDemo.reverse "a \x7b\x7bMODULE_NAME\x7d\x7d b" =
        applyReplacements tblDemo "a \x7b\x7bMODULE_NAME\x7d\x7d b" :=
  ⟨by decide,
    C9_permutation_invariant "demo-app" "demo_app" "A Python project: demo-app" "Your Name"
      "your.email@example.com" "yourusername" "DemoApp" (by decide) tblDemo.reverse
      (List.reverse_perm _) "a \x7b\x7bMODULE_NAME\x7d\x7d b"⟩

/--
C10: the email validity check validates the address extracted by the
address parser rather than the raw input: for the name-addr input
"Name <user@example.com>" it extracts "user@example.com", returns true,
and the prompt loop then stores the raw (stripped) input — not the
extracted address — which is what lands as the author email in the
replacement table.
-/
theorem C10_validates_parsed_stores_raw :
    is_valid_email "Name <user@example.com>" = true ∧
      parseaddrAddr "Name <user@example.com>" = "user@example.com" ∧
      ("Name <user@example.com>" : String) ≠ "user@example.com" ∧
      promptEmail ["Name <user@example.com>"] = some "Name <user@example.com>" ∧
      (buildReplacements "demo-app" "demo_app" "d" "Your Name" "Name <user@example.com>"
          "yourusername" "DemoApp").lookup "\x7b\x7bAUTHOR_EMAIL\x7d\x7d" =
        some "Name <user@example.com>" :=
  ⟨by decide, by decide, by decide, by decide, by decide⟩

theorem C4_email_validation_witness :
    promptEmail ("" :: ["anything"]) = some defaultEmail :=
  C4_email_validation.2.2.2 ["anything"]

/-- Two Markdown files, the second failing to read. -/
def filesCE8 : List SFile :=
  [⟨"README.md".data, "hello \x7b\x7bMODULE_NAME\x7d\x7d".data, true, true⟩,
   ⟨"logo.md".data, "binary".data, false, true⟩,
   ⟨"after.md".data, "\x7b\x7bAUTHOR_NAME\x7d\x7d".data, true, true⟩]

theorem C8_per_file_errors_isolated_witness :
    contentPass (tableChars tblDemo) filesCE8 =
      (filesCE8.map (procFile (tableChars tblDemo)), (filesCE8.filter fileFails).map failMsg) :=
  C8_per_file_errors_isolated (tableChars tblDemo) filesCE8
